import Mathlib

/-!
Verification development for the `lrureplaysubject` repository
(`src/index.js`): a shallow embedding of `tryExtractKey`,
`LRUReplaySubject` (constructor, `next`, `subscribe`, the inherited
RxJS `Subject` `error`/`complete`), the bounded store it owns, and the
`shareLRUReplay` operator, together with theorems settling the claims
of the specification.

Conventions of the embedding:
* JS values are modelled by the inductive `JSVal`; `undefined` and
  `null` are explicit constructors.  A JS `Map` is modelled as an
  insertion-ordered association list: `Map.set` on a present key
  replaces the value in place, on an absent key appends.
* Time is an explicit `now : Nat` argument (`Date.now()`).
* Fallible calls return alongside the new state; a thrown `TypeError`
  in `subscribe` is an `Except.error`.
-/

namespace LRUReplay

mutual

/-- JS values (enough structure for the module: primitives and plain
objects with string-named fields, in declaration order). -/
inductive JSVal where
  | vNull
  | vUndefined
  | vBool (b : Bool)
  | vNum (n : Int)
  | vStr (s : String)
  | vObj (fields : JSFields)
deriving DecidableEq, Repr

inductive JSFields where
  | fnil
  | fcons (name : String) (v : JSVal) (rest : JSFields)
deriving DecidableEq, Repr

end

/-- Field lookup on a JS object (`key[i] in object` followed by
`object[key[i]]`). -/
def JSFields.lookup : JSFields → String → Option JSVal
  | .fnil, _ => none
  | .fcons n v rest, s => if n = s then some v else rest.lookup s

/-- The guard of `LRUReplaySubject.next`:
`value === undefined || value === null`. -/
def isNullish : JSVal → Bool
  | .vUndefined => true
  | .vNull => true
  | _ => false

/-- The `key` configuration option of the constructor: absent (falsy),
a dotted string path, or an array of segments. -/
inductive KeyCfg where
  | noKey
  | strPath (s : String)
  | arrPath (segs : List String)
deriving DecidableEq

/-- The loop of `tryExtractKey`: walk the segments through the nested
value; a missing segment, or a falsy intermediate value, yields
`undefined`.  (For a truthy primitive intermediate the source's `in`
operator would throw; no configuration exercised here reaches that
case, and the model folds it into the `undefined` result.) -/
def walkPath : List String → JSVal → JSVal
  | [], object => object
  | seg :: rest, object =>
    match object with
    | .vObj fields =>
      match fields.lookup seg with
      | some inner => walkPath rest inner
      | none => .vUndefined
    | _ => .vUndefined

/-- `key.split('.')`: split a string on the dot separator (structural
recursion over the character list, so that it evaluates by kernel
reduction; agrees with JS `String.prototype.split('.')` — an input
without dots yields the one-element list). -/
def splitPath (s : String) : List String :=
  let r := s.data.foldl
    (fun (acc : List String × List Char) c =>
      if c = '.' then (acc.1 ++ [String.mk acc.2.reverse], [])
      else (acc.1, c :: acc.2))
    ([], [])
  r.1 ++ [String.mk r.2.reverse]

/-- `tryExtractKey(key)` applied to a value.  `if (!key) return object`
makes an absent key — and the falsy empty string — the identity;
a string path is split on `"."`. -/
def tryExtractKey (k : KeyCfg) (object : JSVal) : JSVal :=
  match k with
  | .noKey => object
  | .strPath s => if s = "" then object else walkPath (splitPath s) object
  | .arrPath segs => walkPath segs object

section JSMap

variable {α : Type}

/-- `Map.prototype.has`. -/
def mapHas (m : List (JSVal × α)) (k : JSVal) : Bool :=
  m.any (fun p => decide (p.1 = k))

/-- `Map.prototype.get`. -/
def mapGet (m : List (JSVal × α)) (k : JSVal) : Option α :=
  (m.find? (fun p => decide (p.1 = k))).map (fun p => p.2)

/-- `Map.prototype.set`: replace in place when the key is present
(insertion order is kept), append otherwise. -/
def mapSet (m : List (JSVal × α)) (k : JSVal) (v : α) : List (JSVal × α) :=
  if mapHas m k then m.map (fun p => if p.1 = k then (k, v) else p)
  else m ++ [(k, v)]

/-- `Map.prototype.delete` (ignoring the returned Bool where unused). -/
def mapDelete (m : List (JSVal × α)) (k : JSVal) : List (JSVal × α) :=
  m.filter (fun p => decide (¬ p.1 = k))

def mapKeys (m : List (JSVal × α)) : List JSVal := m.map (fun p => p.1)

end JSMap

/-- A stored entry of the bounded store: the value and its absolute
expiry time (`undefined` when the store's `maxAge` is `Infinity`). -/
structure CacheEntry where
  value : JSVal
  expiry : Option Nat
deriving DecidableEq, Repr

/-- Modelled from the spec: the BoundedStore capability (spec §6) is
the `quick-lru` package, whose source is not part of this repository.
The model follows the segmented two-map algorithm that the
repository's own tests (`src/test.js`) pin down: a current segment
`cache` and a previous segment `oldCache`, an insertion counter
`_size` for the current segment, rotation (with eviction reporting of
the dropped previous segment) once `_size` reaches `maxSize`, and
lazy per-entry expiry checked during iteration.  `maxSize`/`maxAge`
use `none` for `Number.POSITIVE_INFINITY`. -/
structure QLRU where
  maxSize : Option Nat
  maxAge : Option Nat
  cache : List (JSVal × CacheEntry)
  oldCache : List (JSVal × CacheEntry)
  csize : Nat
deriving DecidableEq, Repr

def emptyQLRU (maxSize maxAge : Option Nat) : QLRU :=
  ⟨maxSize, maxAge, [], [], 0⟩

/-- `set(key, value)` with the store's default `maxAge`: refresh in
place when the key is in the current segment; otherwise insert into
the current segment and, when the insertion counter reaches
`maxSize`, rotate — report every entry of the dropped previous
segment to `onEviction` (second component, values in segment order),
make the current segment the previous one, and start a fresh current
segment. -/
def qlruSet (q : QLRU) (k v : JSVal) (now : Nat) : QLRU × List JSVal :=
  let e : CacheEntry := ⟨v, q.maxAge.map (fun a => now + a)⟩
  if mapHas q.cache k then
    ({ q with cache := mapSet q.cache k e }, [])
  else
    let cache1 := mapSet q.cache k e
    let n := q.csize + 1
    match q.maxSize with
    | some m =>
      if m ≤ n then
        ({ q with cache := [], oldCache := cache1, csize := 0 },
         q.oldCache.map (fun p => p.2.value))
      else ({ q with cache := cache1, csize := n }, [])
    | none => ({ q with cache := cache1, csize := n }, [])

/-- `delete(key)`: removal from both segments, adjusting the insertion
counter when the key was in the current segment. -/
def qlruDelete (q : QLRU) (k : JSVal) : QLRU :=
  { q with
    cache := mapDelete q.cache k
    oldCache := mapDelete q.oldCache k
    csize := if mapHas q.cache k then q.csize - 1 else q.csize }

/-- `_deleteIfExpired`: an entry whose expiry has passed is removed
and reported to `onEviction`; returns whether it was removed. -/
def deleteIfExpired (q : QLRU) (now : Nat) (k : JSVal) (e : CacheEntry) :
    Bool × QLRU × List JSVal :=
  match e.expiry with
  | some t => if t ≤ now then (true, qlruDelete q k, [e.value]) else (false, q, [])
  | none => (false, q, [])

/-- One segment pass of `entriesAscending` / `entriesDescending` over a
snapshot: when `chk` is set (the previous-segment pass) keys still
present in the live current segment are skipped; each remaining entry
is dropped (and reported) when expired, yielded otherwise. -/
def iterLoop (now : Nat) (chk : Bool) :
    List (JSVal × CacheEntry) → QLRU → List (JSVal × JSVal) × QLRU × List JSVal
  | [], q => ([], q, [])
  | (k, e) :: rest, q =>
    if chk && mapHas q.cache k then iterLoop now chk rest q
    else
      let d := deleteIfExpired q now k e
      let r := iterLoop now chk rest d.2.1
      if d.1 then (r.1, r.2.1, d.2.2 ++ r.2.2)
      else ((k, e.value) :: r.1, r.2.1, d.2.2 ++ r.2.2)

/-- `entriesDescending()`, run to exhaustion: the current segment in
reverse insertion order, then the previous segment in reverse
insertion order (skipping keys shadowed by the current segment).
Returns the yielded `(key, value)` pairs, the store after lazy expiry
removals, and the values reported to `onEviction`. -/
def entriesDescendingRun (q : QLRU) (now : Nat) :
    List (JSVal × JSVal) × QLRU × List JSVal :=
  let r1 := iterLoop now false q.cache.reverse q
  let r2 := iterLoop now true r1.2.1.oldCache.reverse r1.2.1
  (r1.1 ++ r2.1, r2.2.1, r1.2.2 ++ r2.2.2)

/-- `entriesAscending()`, run to exhaustion: the previous segment in
insertion order (skipping keys shadowed by the current segment), then
the current segment in insertion order. -/
def entriesAscendingRun (q : QLRU) (now : Nat) :
    List (JSVal × JSVal) × QLRU × List JSVal :=
  let r1 := iterLoop now true q.oldCache q
  let r2 := iterLoop now false r1.2.1.cache r1.2.1
  (r1.1 ++ r2.1, r2.2.1, r1.2.2 ++ r2.2.2)

/-- The shape of the argument passed to `subscribe`: a plain function,
an object with a `next` method, an object without one, or anything
else (`null`, `undefined`, a primitive). -/
inductive SubKind where
  | sFun
  | sObjNext
  | sObjNoNext
  | sPrim
deriving DecidableEq, Repr

/-- Whether the replay loop of `subscribe` runs for this subscriber
(`typeof subscriber === 'function' || typeof subscriber.next ===
'function'`), which is also whether `Subject.next` fan-out reaches
it. -/
def hasNextHandler : SubKind → Bool
  | .sFun => true
  | .sObjNext => true
  | _ => false

/-- A terminal signal as delivered to a subscriber. -/
inductive TermSig where
  | sigErr (e : JSVal)
  | sigComplete
deriving DecidableEq, Repr

/-- The externally observable record of one subscriber: what it was,
what it has received, and whether it is still in the Subject's
observer list. -/
structure Consumer where
  kind : SubKind
  received : List JSVal
  gotError : Option JSVal
  gotComplete : Bool
  active : Bool
deriving DecidableEq, Repr

/-- The state of one `LRUReplaySubject`: the key mapper fixed at
construction, the owned bounded store, the log of values emitted on
the `onEviction` subject, the subscriber records, and the RxJS
`Subject` terminal flags (`isStopped`, `hasError`, `thrownError`). -/
structure LRUSubject where
  mapper : JSVal → JSVal
  cache : QLRU
  evictLog : List JSVal
  consumers : List Consumer
  stopped : Bool
  hasError : Bool
  thrownError : Option JSVal

/-- The constructor configuration (`maxSize`, `maxAge`, `key`, `map`;
`onEviction` is observed through `evictLog`). -/
structure SubjectConfig where
  maxSize : Option Nat := none
  maxAge : Option Nat := none
  key : KeyCfg := .noKey
  map : Option (JSVal → JSVal) := none

/-- The constructor: `_mapper = map || tryExtractKey(key)` and a fresh
store. -/
def newSubject (cfg : SubjectConfig) : LRUSubject :=
  { mapper := cfg.map.getD (tryExtractKey cfg.key)
    cache := emptyQLRU cfg.maxSize cfg.maxAge
    evictLog := []
    consumers := []
    stopped := false
    hasError := false
    thrownError := none }

/-- `LRUReplaySubject.next(value)`: drop nullish values; otherwise
admit the value to the store under the derived key (always — before
the inherited `Subject.next`, whose fan-out is suppressed once the
subject is stopped). -/
def subjectNext (s : LRUSubject) (v : JSVal) (now : Nat) : LRUSubject :=
  if isNullish v then s
  else
    let r := qlruSet s.cache (s.mapper v) v now
    let s1 : LRUSubject := { s with cache := r.1, evictLog := s.evictLog ++ r.2 }
    if s1.stopped then s1
    else
      { s1 with
        consumers := s1.consumers.map (fun c =>
          if c.active && hasNextHandler c.kind then
            { c with received := c.received ++ [v] }
          else c) }

/-- `LRUReplaySubject.subscribe(subscriber)`.  A subscriber that is
neither a function nor an object makes it throw a `TypeError`
(`Except.error`, state unchanged).  Otherwise: replay of
`entriesDescending` runs first (only when the subscriber has a `next`
handler), then the inherited `Subject.subscribe` delivers the
recorded terminal signal, if any, and registers the subscriber as an
observer when the subject is not stopped.  Returns the values
replayed before returning, the terminal signal delivered, and the new
state. -/
def subjectSubscribe (s : LRUSubject) (kind : SubKind) (now : Nat) :
    Except Unit (List JSVal × Option TermSig) × LRUSubject :=
  match kind with
  | .sPrim => (.error (), s)
  | _ =>
    let rep :=
      if hasNextHandler kind then
        let r := entriesDescendingRun s.cache now
        (r.1.map (fun p => p.2), r.2.1, r.2.2)
      else ([], s.cache, [])
    let s1 : LRUSubject := { s with cache := rep.2.1, evictLog := s.evictLog ++ rep.2.2 }
    let term : Option TermSig :=
      if s1.hasError then some (.sigErr (s1.thrownError.getD .vUndefined))
      else if s1.stopped then some .sigComplete
      else none
    let c : Consumer :=
      { kind := kind
        received := rep.1
        gotError := if s1.hasError then s1.thrownError else none
        gotComplete := !s1.hasError && s1.stopped
        active := !s1.stopped }
    (.ok (rep.1, term), { s1 with consumers := s1.consumers ++ [c] })

/-- Inherited `Subject.error(err)`: record the error, stop, deliver it
to every current observer and remove them. -/
def subjectError (s : LRUSubject) (e : JSVal) : LRUSubject :=
  if s.stopped then s
  else
    { s with
      stopped := true
      hasError := true
      thrownError := some e
      consumers := s.consumers.map (fun c =>
        if c.active then { c with gotError := some e, active := false } else c) }

/-- Inherited `Subject.complete()`: stop, deliver completion to every
current observer and remove them. -/
def subjectComplete (s : LRUSubject) : LRUSubject :=
  if s.stopped then s
  else
    { s with
      stopped := true
      consumers := s.consumers.map (fun c =>
        if c.active then { c with gotComplete := true, active := false } else c) }

/-- Publish a list of values in order. -/
def publishList (s : LRUSubject) (vs : List JSVal) (now : Nat) : LRUSubject :=
  vs.foldl (fun acc v => subjectNext acc v now) s

/-- The values a subscriber of the given shape receives synchronously,
before its `subscribe` call returns (empty when `subscribe` throws). -/
def replayTo (s : LRUSubject) (kind : SubKind) (now : Nat) : List JSVal :=
  match (subjectSubscribe s kind now).1 with
  | .ok r => r.1
  | .error _ => []

/-- The terminal signal a subscriber of the given shape receives at
`subscribe` time, delivered after the replay. -/
def termTo (s : LRUSubject) (kind : SubKind) (now : Nat) : Option TermSig :=
  match (subjectSubscribe s kind now).1 with
  | .ok r => r.2
  | .error _ => none

/-- One run of the factory passed to `defer` inside `shareLRUReplay`:
its own `activeSubscribers` counter and whether the upstream
`source.subscribe` subscription it made is still live. -/
structure DeferInstance where
  active : Nat
  upLive : Bool
deriving DecidableEq, Repr

/-- The observable produced by `shareLRUReplay(config)(source)` is
`defer(factory)`.  Subscribing to a `defer` observable invokes the
factory afresh for that subscriber (rxjs `defer` semantics), so the
state of the shared observable is the list of factory runs made so
far, one per consumer that has attached. -/
structure ShareState where
  insts : List DeferInstance
deriving DecidableEq, Repr

def shareInit : ShareState := ⟨[]⟩

/-- One consumer subscribes to the shared observable: the `defer`
factory runs — creating a fresh `LRUReplaySubject` and immediately
calling `source.subscribe` — and the returned inner `Observable`
registers this one consumer (`activeSubscribers++`, from 0 to 1). -/
def shareAttach (s : ShareState) : ShareState :=
  ⟨s.insts ++ [⟨1, true⟩]⟩

/-- Consumer `i` detaches: the cleanup function of its own factory run
executes (`activeSubscribers--`; when that counter reaches 0, that
run's upstream subscription is released). -/
def shareDetach (s : ShareState) (i : Nat) : ShareState :=
  match s.insts.get? i with
  | none => s
  | some inst =>
    let a := inst.active - 1
    ⟨s.insts.set i ⟨a, if a = 0 then false else inst.upLive⟩⟩

/-- How many `source.subscribe` calls have been made on the upstream
source observable. -/
def upstreamSubscribeCount (s : ShareState) : Nat := s.insts.length

/-- How many upstream subscriptions are currently live. -/
def liveUpstreamCount (s : ShareState) : Nat :=
  (s.insts.filter (fun d => d.upLive)).length

/-- How many upstream subscriptions have been released. -/
def upstreamUnsubscribeCount (s : ShareState) : Nat :=
  (s.insts.filter (fun d => !d.upLive)).length

/-- Reference fold used in proofs: the store's current segment after a
sequence of admissions `set(f v, v)` starting from `m`, when no
rotation and no expiry occur (unbounded, ageless configuration). -/
def storeFold (f : JSVal → JSVal) (m : List (JSVal × CacheEntry)) (vs : List JSVal) :
    List (JSVal × CacheEntry) :=
  vs.foldl (fun acc v => mapSet acc (f v) ⟨v, none⟩) m

/-- Reference list used in proofs: the entries admitted for a list of
values with pairwise distinct derived keys, in admission order. -/
def entriesOf (f : JSVal → JSVal) (vs : List JSVal) : List (JSVal × CacheEntry) :=
  vs.map (fun v => (f v, ⟨v, none⟩))

/-- A subject with capacity `N` (no age limit) and mapper `f`, after
publishing `vs`. -/
def boundedRun (f : JSVal → JSVal) (N : Nat) (vs : List JSVal) (now : Nat) :
    LRUSubject :=
  publishList (newSubject { maxSize := some N, map := some f }) vs now

section MapLemmas

variable {α : Type}

theorem mapHas_iff {m : List (JSVal × α)} {k : JSVal} :
    mapHas m k = true ↔ k ∈ mapKeys m := by
  simp only [mapHas, mapKeys, List.any_eq_true, decide_eq_true_eq, List.mem_map]

theorem mapHas_eq_false {m : List (JSVal × α)} {k : JSVal} :
    mapHas m k = false ↔ k ∉ mapKeys m := by
  rw [Bool.eq_false_iff]
  exact not_congr mapHas_iff

theorem mapHas_cons {p : JSVal × α} {m : List (JSVal × α)} {k : JSVal} :
    mapHas (p :: m) k = (decide (p.1 = k) || mapHas m k) := by
  simp [mapHas]

theorem mapGet_cons (p : JSVal × α) (m : List (JSVal × α)) (k : JSVal) :
    mapGet (p :: m) k = if p.1 = k then some p.2 else mapGet m k := by
  by_cases h : p.1 = k
  · simp [mapGet, List.find?_cons_of_pos, h]
  · simp only [mapGet, h, if_false]
    rw [List.find?_cons_of_neg]
    simp [h]

theorem mapKeys_append (m m' : List (JSVal × α)) :
    mapKeys (m ++ m') = mapKeys m ++ mapKeys m' :=
  List.map_append _ _ _

theorem mapSet_of_not_has {m : List (JSVal × α)} {k : JSVal} (e : α)
    (h : mapHas m k = false) : mapSet m k e = m ++ [(k, e)] := by
  simp [mapSet, h]

theorem mapKeys_replace (m : List (JSVal × α)) (k : JSVal) (e : α) :
    mapKeys (m.map (fun p => if p.1 = k then (k, e) else p)) = mapKeys m := by
  induction m with
  | nil => rfl
  | cons p r ih =>
    by_cases h : p.1 = k
    · simp [mapKeys, h, List.map_cons] at ih ⊢
      exact ih
    · simp [mapKeys, h, List.map_cons] at ih ⊢
      exact ih

theorem mapKeys_mapSet (m : List (JSVal × α)) (k : JSVal) (e : α) :
    mapKeys (mapSet m k e) =
      if mapHas m k then mapKeys m else mapKeys m ++ [k] := by
  unfold mapSet
  split
  · exact mapKeys_replace m k e
  · simp [mapKeys_append, mapKeys]

theorem nodup_mapKeys_mapSet {m : List (JSVal × α)} (k : JSVal) (e : α)
    (h : (mapKeys m).Nodup) : (mapKeys (mapSet m k e)).Nodup := by
  rw [mapKeys_mapSet]
  split
  · exact h
  · rename_i hh
    have hk : k ∉ mapKeys m := mapHas_eq_false.mp (by simpa using hh)
    simp [List.nodup_append, h, hk]

theorem mapGet_eq_none_of_not_has {m : List (JSVal × α)} {k : JSVal}
    (h : mapHas m k = false) : mapGet m k = none := by
  induction m with
  | nil => rfl
  | cons p r ih =>
    rw [mapHas_cons, Bool.or_eq_false_iff] at h
    have hp : ¬ p.1 = k := by simpa using h.1
    rw [mapGet_cons]
    simp only [hp, if_false]
    exact ih h.2

theorem mapGet_replace_self (m : List (JSVal × α)) (k : JSVal) (e : α)
    (hh : mapHas m k = true) :
    mapGet (m.map (fun p => if p.1 = k then (k, e) else p)) k = some e := by
  induction m with
  | nil => simp [mapHas] at hh
  | cons p r ih =>
    rw [List.map_cons]
    by_cases hp : p.1 = k
    · rw [if_pos hp, mapGet_cons]
      simp
    · rw [if_neg hp, mapGet_cons, if_neg hp]
      rw [mapHas_cons, Bool.or_eq_true_iff] at hh
      rcases hh with hh | hh
      · exact absurd (of_decide_eq_true hh) hp
      · exact ih hh

theorem mapGet_append_of_none {m mm : List (JSVal × α)} {k : JSVal}
    (h0 : mapGet m k = none) : mapGet (m ++ mm) k = mapGet mm k := by
  induction m with
  | nil => rfl
  | cons p r ih =>
    rw [mapGet_cons] at h0
    rw [List.cons_append, mapGet_cons]
    by_cases hp : p.1 = k
    · rw [if_pos hp] at h0
      cases h0
    · rw [if_neg hp] at h0 ⊢
      exact ih h0

theorem mapGet_mapSet_self (m : List (JSVal × α)) (k : JSVal) (e : α) :
    mapGet (mapSet m k e) k = some e := by
  unfold mapSet
  split
  · rename_i hh
    exact mapGet_replace_self m k e hh
  · rename_i hh
    have h0 : mapGet m k = none :=
      mapGet_eq_none_of_not_has (by simpa using hh)
    rw [mapGet_append_of_none h0, mapGet_cons]
    simp

theorem mapGet_replace_ne (m : List (JSVal × α)) {k kk : JSVal} (e : α)
    (h : kk ≠ k) :
    mapGet (m.map (fun p => if p.1 = k then (k, e) else p)) kk = mapGet m kk := by
  induction m with
  | nil => rfl
  | cons p r ih =>
    rw [List.map_cons]
    by_cases hp : p.1 = k
    · rw [if_pos hp, mapGet_cons, mapGet_cons]
      have h1 : ¬ (k = kk) := fun hc => h hc.symm
      have h2 : ¬ (p.1 = kk) := by
        rw [hp]
        exact h1
      rw [if_neg (by simpa using h1), if_neg h2]
      exact ih
    · rw [if_neg hp, mapGet_cons, mapGet_cons]
      by_cases hpk : p.1 = kk
      · rw [if_pos hpk, if_pos hpk]
      · rw [if_neg hpk, if_neg hpk]
        exact ih

theorem mapGet_append_singleton_ne (m : List (JSVal × α)) {k kk : JSVal} (e : α)
    (h : kk ≠ k) : mapGet (m ++ [(k, e)]) kk = mapGet m kk := by
  induction m with
  | nil =>
    rw [List.nil_append, mapGet_cons, if_neg (fun hc => h hc.symm)]
  | cons p r ih =>
    rw [List.cons_append, mapGet_cons, mapGet_cons]
    by_cases hp : p.1 = kk
    · rw [if_pos hp, if_pos hp]
    · rw [if_neg hp, if_neg hp]
      exact ih

theorem mapGet_mapSet_ne (m : List (JSVal × α)) {k kk : JSVal} (e : α)
    (h : kk ≠ k) : mapGet (mapSet m k e) kk = mapGet m kk := by
  unfold mapSet
  split
  · exact mapGet_replace_ne m e h
  · exact mapGet_append_singleton_ne m e h

theorem mem_mapSet {m : List (JSVal × α)} {k : JSVal} {e : α} {p : JSVal × α}
    (h : p ∈ mapSet m k e) : p ∈ m ∨ p = (k, e) := by
  unfold mapSet at h
  split at h
  · rcases List.mem_map.mp h with ⟨q, hq, hqe⟩
    by_cases hqk : q.1 = k
    · right
      rw [← hqe]
      simp [hqk]
    · left
      rw [← hqe]
      simpa [hqk] using hq
  · rcases List.mem_append.mp h with h1 | h1
    · exact Or.inl h1
    · right
      simpa using h1

theorem mapSet_self_mem (m : List (JSVal × α)) (k : JSVal) (e : α) :
    (k, e) ∈ mapSet m k e := by
  unfold mapSet
  split
  · rename_i hh
    have : ∃ p ∈ m, decide (p.1 = k) = true := List.any_eq_true.mp hh
    rcases this with ⟨p, hp, hdec⟩
    have hpk : p.1 = k := of_decide_eq_true hdec
    refine List.mem_map.mpr ⟨p, hp, ?_⟩
    simp [hpk]
  · simp

theorem mapGet_of_mem_nodup {m : List (JSVal × α)} {p : JSVal × α}
    (hn : (mapKeys m).Nodup) (hp : p ∈ m) : mapGet m p.1 = some p.2 := by
  induction m with
  | nil => simp at hp
  | cons q r ih =>
    have hn2 : (q.1 :: mapKeys r).Nodup := by simpa [mapKeys] using hn
    rcases List.mem_cons.mp hp with rfl | hpr
    · rw [mapGet_cons, if_pos rfl]
    · have hq1 : ¬ q.1 = p.1 := by
        intro hc
        have hmem : p.1 ∈ mapKeys r := List.mem_map.mpr ⟨p, hpr, rfl⟩
        exact (List.nodup_cons.mp hn2).1 (hc ▸ hmem)
      rw [mapGet_cons, if_neg hq1]
      exact ih (List.nodup_cons.mp hn2).2 hpr

end MapLemmas

section FoldLemmas

theorem storeFold_nil (f : JSVal → JSVal) (m : List (JSVal × CacheEntry)) :
    storeFold f m [] = m := rfl

theorem storeFold_cons (f : JSVal → JSVal) (m : List (JSVal × CacheEntry))
    (v : JSVal) (vs : List JSVal) :
    storeFold f m (v :: vs) = storeFold f (mapSet m (f v) ⟨v, none⟩) vs := rfl

theorem storeFold_append (f : JSVal → JSVal) (m : List (JSVal × CacheEntry))
    (vs ws : List JSVal) :
    storeFold f m (vs ++ ws) = storeFold f (storeFold f m vs) ws :=
  List.foldl_append _ _ _ _

theorem entriesOf_keys (f : JSVal → JSVal) (vs : List JSVal) :
    mapKeys (entriesOf f vs) = vs.map f := by
  simp [entriesOf, mapKeys, List.map_map]

theorem storeFold_distinct (f : JSVal → JSVal) (m : List (JSVal × CacheEntry))
    (vs : List JSVal) (hk : (vs.map f).Nodup)
    (hd : ∀ v ∈ vs, f v ∉ mapKeys m) :
    storeFold f m vs = m ++ entriesOf f vs := by
  induction vs generalizing m with
  | nil => simp [storeFold_nil, entriesOf]
  | cons v r ih =>
    rw [storeFold_cons]
    have hhas : mapHas m (f v) = false :=
      mapHas_eq_false.mpr (hd v (List.mem_cons_self v r))
    rw [mapSet_of_not_has _ hhas]
    have hk2 : (r.map f).Nodup := by
      rw [List.map_cons] at hk
      exact (List.nodup_cons.mp hk).2
    have hnotin : f v ∉ r.map f := by
      rw [List.map_cons] at hk
      exact (List.nodup_cons.mp hk).1
    have hd2 : ∀ w ∈ r, f w ∉ mapKeys (m ++ [(f v, (⟨v, none⟩ : CacheEntry))]) := by
      intro w hw
      rw [mapKeys_append]
      intro hmem
      rcases List.mem_append.mp hmem with h1 | h1
      · exact hd w (List.mem_cons_of_mem v hw) h1
      · have : f w = f v := by simpa [mapKeys] using h1
        exact hnotin (this ▸ List.mem_map.mpr ⟨w, hw, rfl⟩)
    rw [ih _ hk2 hd2]
    simp [entriesOf]

theorem mem_storeFold {f : JSVal → JSVal} {m : List (JSVal × CacheEntry)}
    {vs : List JSVal} {p : JSVal × CacheEntry} (h : p ∈ storeFold f m vs) :
    p ∈ m ∨ ∃ v ∈ vs, p = (f v, (⟨v, none⟩ : CacheEntry)) := by
  induction vs generalizing m with
  | nil => exact Or.inl h
  | cons v r ih =>
    rw [storeFold_cons] at h
    rcases ih h with h1 | ⟨w, hw, hp⟩
    · rcases mem_mapSet h1 with h2 | h2
      · exact Or.inl h2
      · exact Or.inr ⟨v, List.mem_cons_self v r, h2⟩
    · exact Or.inr ⟨w, List.mem_cons_of_mem v hw, hp⟩

theorem nodup_keys_storeFold (f : JSVal → JSVal) {m : List (JSVal × CacheEntry)}
    (vs : List JSVal) (h : (mapKeys m).Nodup) :
    (mapKeys (storeFold f m vs)).Nodup := by
  induction vs generalizing m with
  | nil => exact h
  | cons v r ih =>
    rw [storeFold_cons]
    exact ih (nodup_mapKeys_mapSet _ _ h)

theorem mapGet_storeFold (f : JSVal → JSVal) (m : List (JSVal × CacheEntry))
    (vs : List JSVal) (k : JSVal) :
    mapGet (storeFold f m vs) k =
      vs.foldl
        (fun acc v => if f v = k then some (⟨v, none⟩ : CacheEntry) else acc)
        (mapGet m k) := by
  induction vs generalizing m with
  | nil => rfl
  | cons v r ih =>
    rw [storeFold_cons, ih, List.foldl_cons]
    congr 1
    by_cases h : f v = k
    · rw [if_pos h, h, mapGet_mapSet_self]
    · rw [if_neg h, mapGet_mapSet_ne m _ (fun hc => h hc.symm)]

theorem foldl_last_of_absent {f : JSVal → JSVal} {k : JSVal} {l : List JSVal}
    (acc : Option CacheEntry) (h : ∀ w ∈ l, f w ≠ k) :
    l.foldl (fun acc v => if f v = k then some (⟨v, none⟩ : CacheEntry) else acc) acc
      = acc := by
  induction l generalizing acc with
  | nil => rfl
  | cons w r ih =>
    rw [List.foldl_cons, if_neg (h w (List.mem_cons_self w r))]
    exact ih acc (fun x hx => h x (List.mem_cons_of_mem w hx))

end FoldLemmas

section StoreLemmas

theorem qlruSet_unbounded (q : QLRU) (k v : JSVal) (now : Nat)
    (h1 : q.maxSize = none) (h2 : q.maxAge = none) :
    qlruSet q k v now =
      ({ q with
          cache := mapSet q.cache k ⟨v, none⟩
          csize := if mapHas q.cache k then q.csize else q.csize + 1 }, []) := by
  unfold qlruSet
  simp only [h1, h2, Option.map_none']
  split
  · rename_i hh
    simp [hh]
  · rename_i hh
    simp [hh]

theorem iterLoop_noexp (now : Nat) (chk : Bool) (l : List (JSVal × CacheEntry))
    (q : QLRU) (h : ∀ p ∈ l, p.2.expiry = none) :
    iterLoop now chk l q =
      ((l.filter (fun p => !(chk && mapHas q.cache p.1))).map
         (fun p => (p.1, p.2.value)), q, []) := by
  induction l with
  | nil => simp [iterLoop]
  | cons p r ih =>
    obtain ⟨k, e⟩ := p
    have hp : e.expiry = none := h (k, e) (List.mem_cons_self _ _)
    have hr : ∀ x ∈ r, x.2.expiry = none :=
      fun x hx => h x (List.mem_cons_of_mem _ hx)
    unfold iterLoop
    by_cases hc : (chk && mapHas q.cache k) = true
    · rw [if_pos hc, ih hr]
      rw [List.filter_cons]
      simp [hc]
    · have hc2 : (chk && mapHas q.cache k) = false := by
        simpa using hc
      rw [if_neg hc]
      simp only [deleteIfExpired, hp]
      rw [ih hr, List.filter_cons]
      simp [hc2]

theorem descending_noexp (q : QLRU) (now : Nat)
    (h1 : ∀ p ∈ q.cache, p.2.expiry = none)
    (h2 : ∀ p ∈ q.oldCache, p.2.expiry = none) :
    entriesDescendingRun q now =
      (q.cache.reverse.map (fun p => (p.1, p.2.value))
         ++ (q.oldCache.reverse.filter (fun p => !mapHas q.cache p.1)).map
              (fun p => (p.1, p.2.value)),
       q, []) := by
  unfold entriesDescendingRun
  rw [iterLoop_noexp now false q.cache.reverse q
        (fun p hp => h1 p (List.mem_reverse.mp hp))]
  simp only
  rw [iterLoop_noexp now true q.oldCache.reverse q
        (fun p hp => h2 p (List.mem_reverse.mp hp))]
  simp only [Bool.false_and, Bool.not_false, List.filter_true, Bool.true_and,
    List.append_nil]

theorem ascending_noexp (q : QLRU) (now : Nat)
    (h1 : ∀ p ∈ q.cache, p.2.expiry = none)
    (h2 : ∀ p ∈ q.oldCache, p.2.expiry = none) :
    entriesAscendingRun q now =
      ((q.oldCache.filter (fun p => !mapHas q.cache p.1)).map
         (fun p => (p.1, p.2.value))
         ++ q.cache.map (fun p => (p.1, p.2.value)),
       q, []) := by
  unfold entriesAscendingRun
  rw [iterLoop_noexp now true q.oldCache q h2]
  simp only
  rw [iterLoop_noexp now false q.cache q h1]
  simp only [Bool.false_and, Bool.not_false, List.filter_true, Bool.true_and,
    List.append_nil]

end StoreLemmas

section SubjectLemmas

/-- Invariant tying a subject built with an unbounded, ageless
configuration and mapper `f` to its current-segment contents `m`. -/
structure UnbHyp (f : JSVal → JSVal) (s : LRUSubject)
    (m : List (JSVal × CacheEntry)) : Prop where
  hmap : s.mapper = f
  hcache : s.cache.cache = m
  hold : s.cache.oldCache = []
  hms : s.cache.maxSize = none
  hma : s.cache.maxAge = none
  hev : s.evictLog = []
  hst : s.stopped = false
  her : s.hasError = false

theorem unb_newSubject (f : JSVal → JSVal) :
    UnbHyp f (newSubject { map := some f }) [] := by
  constructor <;> rfl

theorem unb_next {f : JSVal → JSVal} {s : LRUSubject}
    {m : List (JSVal × CacheEntry)} (v : JSVal) (now : Nat)
    (h : UnbHyp f s m) (hv : isNullish v = false) :
    UnbHyp f (subjectNext s v now) (mapSet m (f v) ⟨v, none⟩) := by
  unfold subjectNext
  rw [hv]
  simp only [Bool.false_eq_true, if_false]
  rw [qlruSet_unbounded s.cache (s.mapper v) v now h.hms h.hma]
  simp only [h.hst, Bool.false_eq_true, if_false]
  constructor <;> simp [h.hmap, h.hcache, h.hold, h.hms, h.hma, h.hev, h.hst, h.her]

theorem unb_publishList {f : JSVal → JSVal} {s : LRUSubject}
    {m : List (JSVal × CacheEntry)} (vs : List JSVal) (now : Nat)
    (h : UnbHyp f s m) (hnn : ∀ v ∈ vs, isNullish v = false) :
    UnbHyp f (publishList s vs now) (storeFold f m vs) := by
  induction vs generalizing s m with
  | nil => exact h
  | cons v r ih =>
    rw [storeFold_cons]
    exact ih (unb_next v now h (hnn v (List.mem_cons_self _ _)))
      (fun w hw => hnn w (List.mem_cons_of_mem _ hw))

theorem replayTo_nextHandler (s : LRUSubject) (kind : SubKind) (now : Nat)
    (hk : hasNextHandler kind = true) :
    replayTo s kind now =
      ((entriesDescendingRun s.cache now).1).map (fun p => p.2) := by
  cases kind with
  | sFun => rfl
  | sObjNext => rfl
  | sObjNoNext => simp [hasNextHandler] at hk
  | sPrim => simp [hasNextHandler] at hk

theorem replay_of_cache (s : LRUSubject) (kind : SubKind) (now : Nat)
    (hk : hasNextHandler kind = true)
    (hold : s.cache.oldCache = [])
    (hne : ∀ p ∈ s.cache.cache, p.2.expiry = none) :
    replayTo s kind now = s.cache.cache.reverse.map (fun p => p.2.value) := by
  rw [replayTo_nextHandler s kind now hk]
  rw [descending_noexp s.cache now hne (by rw [hold]; intro p hp; cases hp)]
  simp [hold, List.map_map]

theorem termTo_of_error (s : LRUSubject) (kind : SubKind) (now : Nat) (e : JSVal)
    (hk : kind ≠ .sPrim) (he : s.hasError = true) (ht : s.thrownError = some e) :
    termTo s kind now = some (.sigErr e) := by
  cases kind with
  | sPrim => exact absurd rfl hk
  | sFun => simp [termTo, subjectSubscribe, he, ht]
  | sObjNext => simp [termTo, subjectSubscribe, he, ht]
  | sObjNoNext => simp [termTo, subjectSubscribe, he, ht]

theorem termTo_of_complete (s : LRUSubject) (kind : SubKind) (now : Nat)
    (hk : kind ≠ .sPrim) (he : s.hasError = false) (hs : s.stopped = true) :
    termTo s kind now = some .sigComplete := by
  cases kind with
  | sPrim => exact absurd rfl hk
  | sFun => simp [termTo, subjectSubscribe, he, hs]
  | sObjNext => simp [termTo, subjectSubscribe, he, hs]
  | sObjNoNext => simp [termTo, subjectSubscribe, he, hs]

theorem subjectError_parts (s : LRUSubject) (e : JSVal) (h : s.stopped = false) :
    (subjectError s e).cache = s.cache ∧ (subjectError s e).mapper = s.mapper
      ∧ (subjectError s e).stopped = true ∧ (subjectError s e).hasError = true
      ∧ (subjectError s e).thrownError = some e
      ∧ (subjectError s e).evictLog = s.evictLog := by
  simp [subjectError, h]

theorem subjectComplete_parts (s : LRUSubject) (h : s.stopped = false) :
    (subjectComplete s).cache = s.cache ∧ (subjectComplete s).mapper = s.mapper
      ∧ (subjectComplete s).stopped = true
      ∧ (subjectComplete s).hasError = s.hasError
      ∧ (subjectComplete s).thrownError = s.thrownError
      ∧ (subjectComplete s).evictLog = s.evictLog := by
  simp [subjectComplete, h]

end SubjectLemmas

section MoreLemmas

theorem mem_of_mapGet_eq_some {α : Type} {m : List (JSVal × α)} {k : JSVal}
    {e : α} (h : mapGet m k = some e) : (k, e) ∈ m := by
  induction m with
  | nil => cases h
  | cons p r ih =>
    obtain ⟨k1, e1⟩ := p
    rw [mapGet_cons] at h
    by_cases hp : k1 = k
    · rw [if_pos hp] at h
      injection h with h2
      subst hp
      subst h2
      exact List.mem_cons_self _ _
    · rw [if_neg (by simpa using hp)] at h
      exact List.mem_cons_of_mem _ (ih h)

theorem unb_newSubject_key (kc : KeyCfg) :
    UnbHyp (tryExtractKey kc) (newSubject { key := kc }) [] := by
  constructor <;> rfl

/-- The store contents of an unbounded ageless subject never carry an
expiry. -/
theorem storeFold_noexp (f : JSVal → JSVal) (vs : List JSVal)
    {p : JSVal × CacheEntry} (hp : p ∈ storeFold f [] vs) :
    p.2.expiry = none := by
  rcases mem_storeFold hp with h1 | ⟨v, _, hp2⟩
  · cases h1
  · rw [hp2]

/-- For an unbounded ageless subject holding entries with pairwise
distinct keys, the snapshot replay is the published values reversed. -/
theorem replay_storeFold (t : LRUSubject) (kind : SubKind) (now2 : Nat)
    (hkind : hasNextHandler kind = true) (f : JSVal → JSVal) (vs : List JSVal)
    (hc : t.cache.cache = storeFold f [] vs) (hold : t.cache.oldCache = [])
    (hk : (vs.map f).Nodup) :
    replayTo t kind now2 = vs.reverse := by
  have hne : ∀ p ∈ t.cache.cache, p.2.expiry = none := by
    rw [hc]
    intro p hp
    exact storeFold_noexp f vs hp
  rw [replay_of_cache t kind now2 hkind hold hne, hc,
    storeFold_distinct f [] vs hk (fun v _ => by simp [mapKeys])]
  simp only [List.nil_append, entriesOf, List.map_reverse, List.map_map]
  rw [List.reverse_inj]
  exact List.map_id vs

end MoreLemmas

/-- C1: with unbounded capacity and pairwise distinct derived keys, a
consumer that subscribes after a sequence of `next` calls receives,
before `subscribe` returns, exactly the published values in reverse
publish order (newest first). -/
theorem C1_replay_newest_first (f : JSVal → JSVal) (vs : List JSVal)
    (now now2 : Nat)
    (hnn : ∀ v ∈ vs, isNullish v = false)
    (hk : (vs.map f).Nodup) :
    replayTo (publishList (newSubject { map := some f }) vs now) .sFun now2
      = vs.reverse := by
  have h := unb_publishList vs now (unb_newSubject f) hnn
  exact replay_storeFold _ .sFun now2 rfl f vs h.hcache h.hold hk

/-- C1 witness: after `next(A)`, `next(B)`, `next(C)` a new subscriber
receives `[C, B, A]`. -/
theorem C1_witness :
    replayTo (publishList (newSubject { map := some (fun v => v) })
        [.vStr "A", .vStr "B", .vStr "C"] 0) .sFun 0
      = [.vStr "C", .vStr "B", .vStr "A"] :=
  C1_replay_newest_first (fun v => v) [.vStr "A", .vStr "B", .vStr "C"] 0 0
    (by decide) (by decide)

/-- C9: the cache keeps at most one value per derived key: when `v1`
and, later, `v2` are published with equal derived keys (no later
publish deriving that key again; unbounded, ageless configuration;
`v1 ≠ v2`), a consumer attaching afterwards has `v2` replayed exactly
once and `v1` never replayed. -/
theorem C9_one_value_per_key (f : JSVal → JSVal) (l1 l2 l3 : List JSVal)
    (v1 v2 : JSVal) (now now2 : Nat)
    (hnn : ∀ v ∈ l1 ++ v1 :: l2 ++ v2 :: l3, isNullish v = false)
    (hff : f v1 = f v2) (hne : v1 ≠ v2)
    (hl3 : ∀ w ∈ l3, f w ≠ f v2) :
    (replayTo (publishList (newSubject { map := some f })
        (l1 ++ v1 :: l2 ++ v2 :: l3) now) .sFun now2).count v2 = 1
    ∧ v1 ∉ replayTo (publishList (newSubject { map := some f })
        (l1 ++ v1 :: l2 ++ v2 :: l3) now) .sFun now2 := by
  have h := unb_publishList (l1 ++ v1 :: l2 ++ v2 :: l3) now (unb_newSubject f) hnn
  have hne2 : ∀ p ∈ (publishList (newSubject { map := some f })
      (l1 ++ v1 :: l2 ++ v2 :: l3) now).cache.cache, p.2.expiry = none := by
    rw [h.hcache]
    intro p hp
    exact storeFold_noexp _ _ hp
  have hrep := replay_of_cache _ .sFun now2 rfl h.hold hne2
  rw [hrep, h.hcache]
  have hnod : (mapKeys (storeFold f [] (l1 ++ v1 :: l2 ++ v2 :: l3))).Nodup :=
    nodup_keys_storeFold f _ (by simp [mapKeys])
  have hkey : ∀ p ∈ storeFold f [] (l1 ++ v1 :: l2 ++ v2 :: l3),
      p.1 = f p.2.value := by
    intro p hp
    rcases mem_storeFold hp with h1 | ⟨v, _, hp2⟩
    · cases h1
    · rw [hp2]
  have hget : mapGet (storeFold f [] (l1 ++ v1 :: l2 ++ v2 :: l3)) (f v2)
      = some ⟨v2, none⟩ := by
    rw [mapGet_storeFold]
    have hsplit : l1 ++ v1 :: l2 ++ v2 :: l3 = (l1 ++ v1 :: l2) ++ v2 :: l3 := by
      simp
    rw [hsplit, List.foldl_append, List.foldl_cons, if_pos rfl]
    exact foldl_last_of_absent _ hl3
  have hmem : ((f v2), (⟨v2, none⟩ : CacheEntry))
      ∈ storeFold f [] (l1 ++ v1 :: l2 ++ v2 :: l3) := mem_of_mapGet_eq_some hget
  have hvnodup : ((storeFold f [] (l1 ++ v1 :: l2 ++ v2 :: l3)).map
      (fun p => p.2.value)).Nodup := by
    apply List.Nodup.map_on
    · intro p hp q hq hpq
      exact List.inj_on_of_nodup_map hnod hp hq
        (by rw [hkey p hp, hkey q hq, hpq])
    · exact List.Nodup.of_map _ hnod
  have hrepnodup : (((storeFold f [] (l1 ++ v1 :: l2 ++ v2 :: l3)).reverse).map
      (fun p => p.2.value)).Nodup := by
    rw [List.map_reverse]
    exact List.nodup_reverse.mpr hvnodup
  have hmemrep : v2 ∈ ((storeFold f [] (l1 ++ v1 :: l2 ++ v2 :: l3)).reverse).map
      (fun p => p.2.value) :=
    List.mem_map.mpr ⟨_, List.mem_reverse.mpr hmem, rfl⟩
  refine ⟨List.count_eq_one_of_mem hrepnodup hmemrep, ?_⟩
  intro hmem1
  rcases List.mem_map.mp hmem1 with ⟨p, hpr, hpv⟩
  have hpm : p ∈ storeFold f [] (l1 ++ v1 :: l2 ++ v2 :: l3) :=
    List.mem_reverse.mp hpr
  have hp1 : p.1 = f v2 := by
    rw [hkey p hpm, hpv, hff]
  have := mapGet_of_mem_nodup hnod hpm
  rw [hp1, hget] at this
  have hpe : p.2 = (⟨v2, none⟩ : CacheEntry) := by
    injection this with hh
    exact hh.symm
  rw [hpe] at hpv
  simp at hpv
  exact hne hpv.symm

/-- C9 witness: with the constant key mapper, publishing `"a"` then
`"b"` leaves only `"b"`, replayed exactly once. -/
theorem C9_witness :
    (replayTo (publishList (newSubject { map := some (fun _ => .vNum 0) })
        [.vStr "a", .vStr "b"] 0) .sFun 0).count (.vStr "b") = 1
    ∧ .vStr "a" ∉ replayTo (publishList (newSubject { map := some (fun _ => .vNum 0) })
        [.vStr "a", .vStr "b"] 0) .sFun 0 :=
  C9_one_value_per_key (fun _ => .vNum 0) [] [] [] (.vStr "a") (.vStr "b") 0 0
    (by decide) (by decide) (by decide) (by decide)

/-- C5: a consumer attaching after the channel became terminal first
receives the replay of all live cached values newest-first, then the
recorded terminal signal (`deliverError` after `error`,
`deliverComplete` after `complete`), delivered exactly once. -/
theorem C5_terminal_after_replay (f : JSVal → JSVal) (vs : List JSVal)
    (e : JSVal) (now now2 : Nat)
    (hnn : ∀ v ∈ vs, isNullish v = false)
    (hk : (vs.map f).Nodup) :
    (replayTo (subjectError (publishList (newSubject { map := some f }) vs now) e)
        .sObjNext now2 = vs.reverse
      ∧ termTo (subjectError (publishList (newSubject { map := some f }) vs now) e)
          .sObjNext now2 = some (.sigErr e))
    ∧ (replayTo (subjectComplete (publishList (newSubject { map := some f }) vs now))
        .sObjNext now2 = vs.reverse
      ∧ termTo (subjectComplete (publishList (newSubject { map := some f }) vs now))
          .sObjNext now2 = some .sigComplete) := by
  have h := unb_publishList vs now (unb_newSubject f) hnn
  have hep := subjectError_parts _ e h.hst
  have hcp := subjectComplete_parts _ h.hst
  refine ⟨⟨?_, ?_⟩, ?_, ?_⟩
  · apply replay_storeFold _ .sObjNext now2 rfl f vs
    · rw [hep.1]
      exact h.hcache
    · rw [hep.1]
      exact h.hold
    · exact hk
  · exact termTo_of_error _ .sObjNext now2 e (by intro hc; cases hc)
      hep.2.2.2.1 hep.2.2.2.2.1
  · apply replay_storeFold _ .sObjNext now2 rfl f vs
    · rw [hcp.1]
      exact h.hcache
    · rw [hcp.1]
      exact h.hold
    · exact hk
  · refine termTo_of_complete _ .sObjNext now2 (by intro hc; cases hc) ?_ hcp.2.2.1
    rw [hcp.2.2.2.1]
    exact h.her

/-- C5 witness: after `next(1)`, `next(2)`, `error("boom")`, a new
subscriber receives `[2, 1]` and then the error; after completion it
receives the replay and then the completion signal. -/
theorem C5_witness :
    (replayTo (subjectError (publishList (newSubject { map := some (fun v => v) })
        [.vNum 1, .vNum 2] 0) (.vStr "boom")) .sObjNext 0 = [.vNum 2, .vNum 1]
      ∧ termTo (subjectError (publishList (newSubject { map := some (fun v => v) })
        [.vNum 1, .vNum 2] 0) (.vStr "boom")) .sObjNext 0
          = some (.sigErr (.vStr "boom")))
    ∧ (replayTo (subjectComplete (publishList (newSubject { map := some (fun v => v) })
        [.vNum 1, .vNum 2] 0)) .sObjNext 0 = [.vNum 2, .vNum 1]
      ∧ termTo (subjectComplete (publishList (newSubject { map := some (fun v => v) })
        [.vNum 1, .vNum 2] 0)) .sObjNext 0 = some .sigComplete) :=
  C5_terminal_after_replay (fun v => v) [.vNum 1, .vNum 2] (.vStr "boom") 0 0
    (by decide) (by decide)

/-- C10: attaching a consumer does not mutate the cache (absent
expiry): `subscribe` leaves the store and the eviction log exactly as
they were, and a second consumer attaching right after receives an
identical replay sequence. -/
theorem C10_subscribe_does_not_mutate (s : LRUSubject) (now : Nat)
    (h1 : ∀ p ∈ s.cache.cache, p.2.expiry = none)
    (h2 : ∀ p ∈ s.cache.oldCache, p.2.expiry = none) :
    (subjectSubscribe s .sFun now).2.cache = s.cache
    ∧ (subjectSubscribe s .sFun now).2.evictLog = s.evictLog
    ∧ replayTo ((subjectSubscribe s .sFun now).2) .sFun now
        = replayTo s .sFun now := by
  have hd := descending_noexp s.cache now h1 h2
  have hc : (subjectSubscribe s .sFun now).2.cache = s.cache := by
    simp [subjectSubscribe, hasNextHandler, hd]
  refine ⟨hc, ?_, ?_⟩
  · simp [subjectSubscribe, hasNextHandler, hd]
  · rw [replayTo_nextHandler _ .sFun now rfl, replayTo_nextHandler s .sFun now rfl,
      hc]

/-- C10 witness: on a subject holding `1, 2`, a subscribe leaves the
store untouched and two successive subscribers replay identically. -/
theorem C10_witness :
    (subjectSubscribe (publishList (newSubject { }) [.vNum 1, .vNum 2] 0)
        .sFun 0).2.cache
      = (publishList (newSubject { }) [.vNum 1, .vNum 2] 0).cache
    ∧ (subjectSubscribe (publishList (newSubject { }) [.vNum 1, .vNum 2] 0)
        .sFun 0).2.evictLog
      = (publishList (newSubject { }) [.vNum 1, .vNum 2] 0).evictLog
    ∧ replayTo ((subjectSubscribe (publishList (newSubject { })
        [.vNum 1, .vNum 2] 0) .sFun 0).2) .sFun 0
      = replayTo (publishList (newSubject { }) [.vNum 1, .vNum 2] 0) .sFun 0 :=
  C10_subscribe_does_not_mutate _ 0 (by decide) (by decide)

/-- C7 (corrected): `subscribe` throws a `TypeError` only for an
argument that is neither a function nor an object — and then the
channel state is unaffected; an object lacking a `next` method is
accepted: it gets no replay but is registered (no invalid-consumer
failure). -/
theorem C7_subscribe_typeerror_only_for_nonobjects (s : LRUSubject) (now : Nat) :
    subjectSubscribe s .sPrim now = (.error (), s)
    ∧ replayTo s .sObjNoNext now = []
    ∧ (subjectSubscribe s .sObjNoNext now).1 = .ok ([], termTo s .sObjNoNext now) := by
  exact ⟨rfl, rfl, rfl⟩

/-- C7 counterexample: on a fresh subject, attaching an object without
a `next` method succeeds (the claim says it must fail synchronously
with an invalid-consumer error). -/
theorem C7_counterexample :
    (subjectSubscribe (newSubject { }) .sObjNoNext 0).1 = .ok ([], none)
    ∧ (subjectSubscribe (newSubject { }) .sObjNoNext 0).1 ≠ .error () :=
  ⟨rfl, fun h => Except.noConfusion h⟩

theorem subjectNext_stopped_parts (s : LRUSubject) (v : JSVal) (now : Nat)
    (hstop : s.stopped = true) (hnn : isNullish v = false)
    (hms : s.cache.maxSize = none) (hma : s.cache.maxAge = none) :
    (subjectNext s v now).consumers = s.consumers
    ∧ (subjectNext s v now).cache.cache
        = mapSet s.cache.cache (s.mapper v) ⟨v, none⟩
    ∧ (subjectNext s v now).cache.oldCache = s.cache.oldCache := by
  unfold subjectNext
  rw [hnn]
  simp only [Bool.false_eq_true, if_false]
  rw [qlruSet_unbounded s.cache (s.mapper v) v now hms hma]
  simp [hstop]

/-- C4 (corrected): once the channel is terminal, `next` no longer
forwards to consumers, but it still admits the value to the cache:
the cache does change, and the late value is replayed to a subscriber
attaching afterwards (unbounded ageless configuration shown). -/
theorem C4_terminal_next_still_admits (s : LRUSubject) (v : JSVal)
    (now now2 : Nat)
    (hstop : s.stopped = true) (hnn : isNullish v = false)
    (hms : s.cache.maxSize = none) (hma : s.cache.maxAge = none)
    (h1 : ∀ p ∈ s.cache.cache, p.2.expiry = none)
    (h2 : ∀ p ∈ s.cache.oldCache, p.2.expiry = none) :
    (subjectNext s v now).consumers = s.consumers
    ∧ (subjectNext s v now).cache.cache
        = mapSet s.cache.cache (s.mapper v) ⟨v, none⟩
    ∧ v ∈ replayTo (subjectNext s v now) .sFun now2 := by
  have hparts := subjectNext_stopped_parts s v now hstop hnn hms hma
  refine ⟨hparts.1, hparts.2.1, ?_⟩
  have hne1 : ∀ p ∈ (subjectNext s v now).cache.cache, p.2.expiry = none := by
    rw [hparts.2.1]
    intro p hp
    rcases mem_mapSet hp with h | h
    · exact h1 p h
    · rw [h]
  have hne2 : ∀ p ∈ (subjectNext s v now).cache.oldCache, p.2.expiry = none := by
    rw [hparts.2.2]
    exact h2
  rw [replayTo_nextHandler _ .sFun now2 rfl,
    descending_noexp _ now2 hne1 hne2]
  simp only [List.map_append]
  apply List.mem_append.mpr
  left
  rw [hparts.2.1]
  simp only [List.map_map]
  exact List.mem_map.mpr
    ⟨(s.mapper v, (⟨v, none⟩ : CacheEntry)),
     List.mem_reverse.mpr (mapSet_self_mem _ _ _), rfl⟩

/-- C4 witness: after an error, `next(7)` leaves the consumer set
unchanged, stores `7`, and a later subscriber has `7` replayed. -/
theorem C4_witness :
    (subjectNext (subjectError (publishList (newSubject { })
        [.vNum 5] 0) (.vStr "e")) (.vNum 7) 0).consumers
      = (subjectError (publishList (newSubject { }) [.vNum 5] 0)
          (.vStr "e")).consumers
    ∧ (subjectNext (subjectError (publishList (newSubject { })
        [.vNum 5] 0) (.vStr "e")) (.vNum 7) 0).cache.cache
      = mapSet (subjectError (publishList (newSubject { }) [.vNum 5] 0)
          (.vStr "e")).cache.cache
          ((subjectError (publishList (newSubject { }) [.vNum 5] 0)
            (.vStr "e")).mapper (.vNum 7)) ⟨.vNum 7, none⟩
    ∧ .vNum 7 ∈ replayTo (subjectNext (subjectError (publishList
        (newSubject { }) [.vNum 5] 0) (.vStr "e")) (.vNum 7) 0) .sFun 0 :=
  C4_terminal_next_still_admits _ (.vNum 7) 0 0 (by decide) (by decide)
    (by decide) (by decide) (by decide) (by decide)

/-- C4 counterexample: the claim says post-terminal `next` leaves the
cache contents unchanged; on a fresh subject that has errored,
`next(1)` changes the cache. -/
theorem C4_counterexample :
    (subjectNext (subjectError (newSubject { }) (.vStr "boom")) (.vNum 1) 0).cache.cache
      ≠ (subjectError (newSubject { }) (.vStr "boom")).cache.cache := by
  decide

/-- C6 (corrected): a value whose configured path extraction fails is
still admitted, but under the `undefined` sentinel as the key — not
under the value itself — so all such values share one cache slot and
a later one overwrites an earlier one. -/
theorem C6_failed_extraction_uses_sentinel (kc : KeyCfg) (w v : JSVal)
    (now now2 : Nat)
    (hw : tryExtractKey kc w = .vUndefined) (hv : tryExtractKey kc v = .vUndefined)
    (hnw : isNullish w = false) (hnv : isNullish v = false) :
    (publishList (newSubject { key := kc }) [w, v] now).cache.cache
      = [(.vUndefined, ⟨v, none⟩)]
    ∧ replayTo (publishList (newSubject { key := kc }) [w, v] now) .sFun now2
      = [v] := by
  have hnn : ∀ x ∈ [w, v], isNullish x = false := by
    intro x hx
    rcases List.mem_cons.mp hx with rfl | hx2
    · exact hnw
    · rcases List.mem_cons.mp hx2 with rfl | hx3
      · exact hnv
      · cases hx3
  have h := unb_publishList [w, v] now (unb_newSubject_key kc) hnn
  have hcompute : storeFold (tryExtractKey kc) [] [w, v]
      = [(.vUndefined, ⟨v, none⟩)] := by
    rw [storeFold_cons, storeFold_cons, storeFold_nil, hw, hv]
    simp [mapSet, mapHas]
  have hcc : (publishList (newSubject { key := kc }) [w, v] now).cache.cache
      = [(.vUndefined, ⟨v, none⟩)] := by
    rw [h.hcache, hcompute]
  have hne : ∀ p ∈ (publishList (newSubject { key := kc }) [w, v] now).cache.cache,
      p.2.expiry = none := by
    rw [hcc]
    intro p hp
    rcases List.mem_cons.mp hp with rfl | hp2
    · rfl
    · cases hp2
  refine ⟨hcc, ?_⟩
  rw [replay_of_cache _ .sFun now2 rfl h.hold hne, hcc]
  rfl

/-- C6 witness: with key path `"k"`, two objects lacking field `k`
collide on the `undefined` key; only the second survives. -/
theorem C6_witness :
    (publishList (newSubject { key := .strPath "k" })
        [.vObj (.fcons "a" (.vNum 1) .fnil), .vObj (.fcons "a" (.vNum 2) .fnil)]
        0).cache.cache
      = [(.vUndefined, ⟨.vObj (.fcons "a" (.vNum 2) .fnil), none⟩)]
    ∧ replayTo (publishList (newSubject { key := .strPath "k" })
        [.vObj (.fcons "a" (.vNum 1) .fnil), .vObj (.fcons "a" (.vNum 2) .fnil)]
        0) .sFun 0
      = [.vObj (.fcons "a" (.vNum 2) .fnil)] :=
  C6_failed_extraction_uses_sentinel (.strPath "k")
    (.vObj (.fcons "a" (.vNum 1) .fnil)) (.vObj (.fcons "a" (.vNum 2) .fnil))
    0 0 (by decide) (by decide) (by decide) (by decide)

/-- C6 counterexample: the claim says a value failing path extraction
is admitted under the value itself as key, identically to the default
identity derivation; in fact it is admitted under `undefined`, the
value itself is not a key, and the resulting behavior differs from
the default configuration (which would retain both objects). -/
theorem C6_counterexample :
    mapKeys (publishList (newSubject { key := .strPath "k" })
        [.vObj (.fcons "a" (.vNum 1) .fnil), .vObj (.fcons "a" (.vNum 2) .fnil)]
        0).cache.cache
      = [.vUndefined]
    ∧ mapGet (publishList (newSubject { key := .strPath "k" })
        [.vObj (.fcons "a" (.vNum 1) .fnil), .vObj (.fcons "a" (.vNum 2) .fnil)]
        0).cache.cache (.vObj (.fcons "a" (.vNum 1) .fnil))
      = none
    ∧ replayTo (publishList (newSubject { key := .strPath "k" })
        [.vObj (.fcons "a" (.vNum 1) .fnil), .vObj (.fcons "a" (.vNum 2) .fnil)]
        0) .sFun 0
      ≠ replayTo (publishList (newSubject { })
        [.vObj (.fcons "a" (.vNum 1) .fnil), .vObj (.fcons "a" (.vNum 2) .fnil)]
        0) .sFun 0 := by
  decide

/-- C8 (corrected): re-publishing an existing key promotes it only
when the key has rotated into the previous segment; a key still in
the current segment is updated in place.  At capacity 3 — the
configuration of the repository's own test — the sequence
`1,2,3,3,2` yields ascending keys `[1,3,2]` and descending keys
`[2,3,1]`, while `1,2,1` leaves the order `[2,1]` (the re-published
`1` is not promoted). -/
theorem C8_segment_refresh :
    (((entriesAscendingRun (publishList (newSubject { maxSize := some 3 })
        [.vNum 1, .vNum 2, .vNum 3, .vNum 3, .vNum 2] 0).cache 0).1).map
          (fun p => p.1)
      = [.vNum 1, .vNum 3, .vNum 2])
    ∧ (((entriesDescendingRun (publishList (newSubject { maxSize := some 3 })
        [.vNum 1, .vNum 2, .vNum 3, .vNum 3, .vNum 2] 0).cache 0).1).map
          (fun p => p.1)
      = [.vNum 2, .vNum 3, .vNum 1])
    ∧ replayTo (publishList (newSubject { maxSize := some 3 })
        [.vNum 1, .vNum 2, .vNum 1] 0) .sFun 0
      = [.vNum 2, .vNum 1] := by
  decide

/-- C8 counterexample: re-publishing key `1` (still in the current
segment, capacity 3) does not move it to the newest position — the
replay is `[2, 1]`, not `[1, 2]`; and under the default unbounded
capacity the claim's own sequence yields ascending keys `[1, 2, 3]`,
not `[1, 3, 2]`. -/
theorem C8_counterexample :
    (replayTo (publishList (newSubject { maxSize := some 3 })
        [.vNum 1, .vNum 2, .vNum 1] 0) .sFun 0
      ≠ [.vNum 1, .vNum 2])
    ∧ (((entriesAscendingRun (publishList (newSubject { })
        [.vNum 1, .vNum 2, .vNum 3, .vNum 3, .vNum 2] 0).cache 0).1).map
          (fun p => p.1)
      ≠ [.vNum 1, .vNum 3, .vNum 2]) := by
  decide

theorem qlruSet_bounded (q : QLRU) (k v : JSVal) (now N : Nat)
    (hms : q.maxSize = some N) (hma : q.maxAge = none)
    (hh : mapHas q.cache k = false) :
    qlruSet q k v now =
      if N ≤ q.csize + 1 then
        ({ q with cache := [], oldCache := q.cache ++ [(k, ⟨v, none⟩)], csize := 0 },
         q.oldCache.map (fun p => p.2.value))
      else
        ({ q with cache := q.cache ++ [(k, ⟨v, none⟩)], csize := q.csize + 1 }, []) := by
  unfold qlruSet
  simp only [hma, Option.map_none', hh, Bool.false_eq_true, if_false, hms]
  rw [mapSet_of_not_has _ hh]

theorem boundedRun_phase (f : JSVal → JSVal) (N : Nat) (hpos : 1 ≤ N)
    (vs : List JSVal) :
    ∀ now : Nat, (∀ v ∈ vs, isNullish v = false) → ((vs.map f).Nodup) →
    vs.length ≤ N →
    (boundedRun f N vs now).mapper = f
    ∧ (boundedRun f N vs now).evictLog = []
    ∧ (boundedRun f N vs now).stopped = false
    ∧ (boundedRun f N vs now).cache.maxSize = some N
    ∧ (boundedRun f N vs now).cache.maxAge = none
    ∧ ((vs.length < N
        ∧ (boundedRun f N vs now).cache.cache = entriesOf f vs
        ∧ (boundedRun f N vs now).cache.oldCache = []
        ∧ (boundedRun f N vs now).cache.csize = vs.length)
      ∨ (vs.length = N
        ∧ (boundedRun f N vs now).cache.cache = []
        ∧ (boundedRun f N vs now).cache.oldCache = entriesOf f vs
        ∧ (boundedRun f N vs now).cache.csize = 0)) := by
  induction vs using List.reverseRecOn with
  | nil =>
    intro now _ _ _
    refine ⟨rfl, rfl, rfl, rfl, rfl, Or.inl ⟨?_, rfl, rfl, rfl⟩⟩
    simpa using hpos
  | append_singleton ws v ih =>
    intro now hnn hk hlen
    have hnn1 : ∀ w ∈ ws, isNullish w = false := fun w hw => hnn w (by simp [hw])
    have hk1 : (ws.map f).Nodup := by
      rw [List.map_append] at hk
      exact (List.nodup_append.mp hk).1
    have hlenlt : ws.length + 1 ≤ N := by simpa using hlen
    have hlen1 : ws.length ≤ N := by omega
    obtain ⟨hm, hev, hst, hms, hma, hdisj⟩ := ih now hnn1 hk1 hlen1
    rcases hdisj with ⟨hlt, hcc, hoc, hcs⟩ | ⟨heq, hcc, hoc, hcs⟩
    · have hstep : boundedRun f N (ws ++ [v]) now
          = subjectNext (boundedRun f N ws now) v now := by
        simp [boundedRun, publishList, List.foldl_append]
      have hfv : f v ∉ ws.map f := by
        rw [List.map_append] at hk
        intro hmem
        exact (List.nodup_append.mp hk).2.2 hmem (by simp)
      have hhas : mapHas (boundedRun f N ws now).cache.cache (f v) = false := by
        rw [hcc]
        apply mapHas_eq_false.mpr
        rw [entriesOf_keys]
        exact hfv
      have hnv : isNullish v = false := hnn v (by simp)
      rw [hstep]
      unfold subjectNext
      rw [hnv]
      simp only [Bool.false_eq_true, if_false]
      rw [hm, qlruSet_bounded _ (f v) v now N hms hma hhas, hcs]
      by_cases hrot : N ≤ ws.length + 1
      · have hNeq : ws.length + 1 = N := le_antisymm hlenlt hrot
        rw [if_pos hrot]
        refine ⟨?_, ?_, ?_, ?_, ?_, Or.inr ⟨?_, ?_, ?_, ?_⟩⟩ <;>
          simp [hst, hm, hev, hms, hma, hcc, hoc, entriesOf, hNeq]
      · have hlt2 : ws.length + 1 < N := by omega
        rw [if_neg hrot]
        refine ⟨?_, ?_, ?_, ?_, ?_, Or.inl ⟨?_, ?_, ?_, ?_⟩⟩ <;>
          simp [hst, hm, hev, hms, hma, hcc, hoc, entriesOf, hlt2]
    · exfalso
      omega

theorem replay_single_plus_old (t : LRUSubject) (now2 : Nat)
    (f : JSVal → JSVal) (v : JSVal) (ws : List JSVal)
    (hc : t.cache.cache = [(f v, ⟨v, none⟩)])
    (ho : t.cache.oldCache = entriesOf f ws)
    (hdisj : f v ∉ ws.map f) :
    replayTo t .sFun now2 = v :: ws.reverse := by
  have h1 : ∀ p ∈ t.cache.cache, p.2.expiry = none := by
    rw [hc]
    rintro p hp
    rcases List.mem_cons.mp hp with rfl | h
    · rfl
    · cases h
  have h2 : ∀ p ∈ t.cache.oldCache, p.2.expiry = none := by
    rw [ho]
    intro p hp
    rcases List.mem_map.mp hp with ⟨w, _, hpe⟩
    rw [← hpe]
  rw [replayTo_nextHandler _ .sFun now2 rfl, descending_noexp _ now2 h1 h2, hc, ho]
  have hfilter : (entriesOf f ws).reverse.filter
      (fun p => !mapHas [((f v), (⟨v, none⟩ : CacheEntry))] p.1)
      = (entriesOf f ws).reverse := by
    apply List.filter_eq_self.mpr
    intro p hp
    rcases List.mem_map.mp (List.mem_reverse.mp hp) with ⟨w, hw, hpe⟩
    have hneq : ¬ (f v = p.1) := by
      rw [← hpe]
      intro hcontra
      exact hdisj (by rw [hcontra]; exact List.mem_map.mpr ⟨w, hw, rfl⟩)
    simp [mapHas, hneq]
  rw [hfilter]
  simp only [List.map_map, List.map_append, List.reverse_cons, List.reverse_nil,
    List.nil_append, List.map_cons, List.map_nil, List.map_reverse]
  rw [show entriesOf f ws = ws.map (fun w => (f w, (⟨w, none⟩ : CacheEntry)))
      from rfl, List.map_map]
  show [v] ++ (List.map id ws).reverse = v :: ws.reverse
  rw [List.map_id]
  rfl

/-- C2 (corrected): with capacity `N ≥ 2`, publishing `N + 1` distinct
keys evicts nothing — the EvictionSink receives nothing and a
consumer attaching afterwards still has every value, the oldest
included, replayed (quick-lru defers eviction to the next segment
rotation; the claim as stated holds only for `N = 1`). -/
theorem C2_eviction_deferred (f : JSVal → JSVal) (ws : List JSVal) (v : JSVal)
    (N now now2 : Nat) (hN : 2 ≤ N) (hlen : ws.length = N)
    (hnn : ∀ w ∈ ws ++ [v], isNullish w = false)
    (hk : ((ws ++ [v]).map f).Nodup) :
    (boundedRun f N (ws ++ [v]) now).evictLog = []
    ∧ replayTo (boundedRun f N (ws ++ [v]) now) .sFun now2
      = (ws ++ [v]).reverse := by
  have hpos : 1 ≤ N := by omega
  have hnn1 : ∀ w ∈ ws, isNullish w = false := fun w hw => hnn w (by simp [hw])
  have hk1 : (ws.map f).Nodup := by
    rw [List.map_append] at hk
    exact (List.nodup_append.mp hk).1
  obtain ⟨hm, hev, hst, hms, hma, hdisj⟩ :=
    boundedRun_phase f N hpos ws now hnn1 hk1 (le_of_eq hlen)
  rcases hdisj with ⟨hlt, _, _, _⟩ | ⟨heq, hcc, hoc, hcs⟩
  · exact absurd hlen (by omega)
  · have hstep : boundedRun f N (ws ++ [v]) now
        = subjectNext (boundedRun f N ws now) v now := by
      simp [boundedRun, publishList, List.foldl_append]
    have hfv : f v ∉ ws.map f := by
      rw [List.map_append] at hk
      intro hmem
      exact (List.nodup_append.mp hk).2.2 hmem (by simp)
    have hnv : isNullish v = false := hnn v (by simp)
    have hhas : mapHas (boundedRun f N ws now).cache.cache (f v) = false := by
      rw [hcc]
      rfl
    rw [hstep]
    unfold subjectNext
    rw [hnv]
    simp only [Bool.false_eq_true, if_false]
    rw [hm, qlruSet_bounded _ (f v) v now N hms hma hhas, hcs]
    rw [if_neg (by omega : ¬ N ≤ 0 + 1)]
    constructor
    · simp [hst, hev]
    · rw [show (ws ++ [v]).reverse = v :: ws.reverse by simp]
      apply replay_single_plus_old _ now2 f v ws
      · simp [hst, hcc]
      · simp [hst, hoc]
      · exact hfv

/-- C2 witness: capacity 2, publishing `1, 2, 3`: nothing reaches the
EvictionSink and the replay is `[3, 2, 1]`. -/
theorem C2_witness :
    (boundedRun (fun x : JSVal => x) 2
        ([JSVal.vNum 1, JSVal.vNum 2] ++ [JSVal.vNum 3]) 0).evictLog
      = []
    ∧ replayTo (boundedRun (fun x : JSVal => x) 2
        ([JSVal.vNum 1, JSVal.vNum 2] ++ [JSVal.vNum 3]) 0) .sFun 0
      = ([JSVal.vNum 1, JSVal.vNum 2] ++ [JSVal.vNum 3]).reverse :=
  C2_eviction_deferred (fun x : JSVal => x) [JSVal.vNum 1, JSVal.vNum 2]
    (JSVal.vNum 3) 2 0 0 (by decide) (by decide) (by decide) (by decide)

/-- C2 counterexample: capacity 2, three distinct publishes: the
EvictionSink has not received the oldest value (it received nothing)
and the oldest value is still replayed to a new subscriber. -/
theorem C2_counterexample :
    (publishList (newSubject { maxSize := some 2 })
        [.vNum 1, .vNum 2, .vNum 3] 0).evictLog ≠ [.vNum 1]
    ∧ .vNum 1 ∈ replayTo (publishList (newSubject { maxSize := some 2 })
        [.vNum 1, .vNum 2, .vNum 3] 0) .sFun 0 := by
  decide

/-- C3 (code bug): `shareLRUReplay` wraps everything in `defer`, whose
factory runs once per subscriber; attaching two consumers makes two
upstream `source.subscribe` calls and leaves two live upstream
subscriptions (the claim and the operator's own documentation promise
one shared subscription), and detaching both releases two. -/
theorem C3_upstream_not_shared :
    upstreamSubscribeCount (shareAttach (shareAttach shareInit)) = 2
    ∧ liveUpstreamCount (shareAttach (shareAttach shareInit)) = 2
    ∧ upstreamUnsubscribeCount
        (shareDetach (shareDetach (shareAttach (shareAttach shareInit)) 0) 1)
      = 2 := by
  decide

end LRUReplay
